import Mathlib

/-!
# Verification of `cut-off-tiles` (pixel_detector.py, missing_detector.py)

Shallow embedding of the two detection paths of the repository:
run-length scanning over decoded pixel grids (`pixel_detector.py`) and
missing-tile gap inference over a coordinate index (`missing_detector.py`),
together with the surrounding batch/deletion workflow of `scan_directory`.

Machine conventions: a decoded image (`numpy` array) is modelled as a list of
rows, each row a list of pixels, each pixel a list of channel values
(`List Nat`).  A 2-D (grayscale) array's scalar entries are encoded as
singleton channel lists; `np.array_equal(scalar, rgb_triple)` and
`np.array_equal(short_pixel, rgb_triple)` are both false because the shapes
differ, which the encoding reproduces as inequality of lists of different
lengths.  Fallible operations return `Option`.
-/

/-- A target color, as in the `colors` parameter of `check_consecutive_pixels`:
an RGB triple. -/
abbrev TargetColor := Nat × Nat × Nat

/-- A pixel: the list of its channel values. -/
abbrev Pixel := List Nat

/-- A decoded image: rows of pixels (the NumPy array `np.array(img)`). -/
abbrev NpImage := List (List Pixel)

/-- The `np.array(color)` of a target color: its three channel values as a
list, compared against pixels by `np.array_equal`. -/
def colorChannels (c : TargetColor) : List Nat := [c.1, c.2.1, c.2.2]

/-- `np.array_equal(pixel, color_array)`: true iff shapes and values agree,
i.e. the pixel is exactly the three channel values of the target color. -/
def pixelMatches (c : TargetColor) (p : Pixel) : Bool := p = colorChannels c

/-- `img_array.shape[2]` under the encoding: the channel count of the first
pixel (NumPy arrays are uniform, so any pixel would do); `0` when the image
has no pixel.  A 2-D grayscale array is encoded with singleton pixels, so its
depth is `1` and the RGB slice below is skipped, exactly as
`img_array.ndim == 3` fails on it. -/
def pixDepth (img : NpImage) : Nat :=
  (((img.head?).bind List.head?).map List.length).getD 0

/-- `if img_array.ndim == 3 and img_array.shape[2] >= 3: img_array =
img_array[:, :, :3]` — keep only the first three channels of every pixel. -/
def sliceRGB (img : NpImage) : NpImage :=
  if 3 ≤ pixDepth img then img.map (fun row => row.map (List.take 3)) else img

/-- The inner streak loop of `check_consecutive_pixels`: walk a scan line
carrying `consecutive_count` (`cur`) and `max_consecutive` (`best`);
a matching pixel extends the streak and updates the maximum, a mismatch
resets the streak to zero. -/
def scanLine (c : TargetColor) : List Pixel → Nat → Nat → Nat
  | [], _, best => best
  | p :: ps, cur, best =>
    if pixelMatches c p then scanLine c ps (cur + 1) (max best (cur + 1))
    else scanLine c ps 0 best

/-- `img_array.shape[1]` under the encoding: the length of the first row
(`0` for an empty image). -/
def numCols (img : NpImage) : Nat := ((img.head?).map List.length).getD 0

/-- Column `j` of the image as read by the inner loop
`img_array[row_idx, col_idx]`; out-of-range reads (impossible on the
rectangular arrays NumPy produces) default to the empty pixel, which matches
no target color. -/
def colAt (img : NpImage) (j : Nat) : List Pixel := img.map (fun row => row.getD j [])

/-- The 横方向 (row-direction) loop: scan every row left to right, threading
the shared `max_consecutive`. -/
def rowPhase (c : TargetColor) (img : NpImage) (b0 : Nat) : Nat :=
  img.foldl (fun best row => scanLine c row 0 best) b0

/-- The 縦方向 (column-direction) loop: scan every column top to bottom,
continuing from the row-phase `max_consecutive`. -/
def colPhase (c : TargetColor) (img : NpImage) (b0 : Nat) : Nat :=
  (List.range (numCols img)).foldl (fun best j => scanLine c (colAt img j) 0 best) b0

/-- The per-color body of `check_consecutive_pixels`: slice to RGB, run the
row loop then the column loop with one shared `max_consecutive`. -/
def maxConsecutive (img : NpImage) (c : TargetColor) : Nat :=
  colPhase c (sliceRGB img) (rowPhase c (sliceRGB img) 0)

/-- Specification-side notion used to compare against the code: the length of
the matching prefix of a scan line. -/
def leadRun (c : TargetColor) (l : List Pixel) : Nat :=
  (l.takeWhile (pixelMatches c)).length

/-- Specification-side notion: the longest contiguous streak of matching
pixels anywhere in a scan line — the maximum, over all suffixes, of the
matching-prefix length. -/
def lineBest (c : TargetColor) (l : List Pixel) : Nat :=
  (l.tails.map (leadRun c)).foldr max 0

theorem lineBest_nil (c : TargetColor) : lineBest c [] = 0 := rfl

theorem lineBest_cons (c : TargetColor) (p : Pixel) (ps : List Pixel) :
    lineBest c (p :: ps) = max (leadRun c (p :: ps)) (lineBest c ps) := by
  simp [lineBest, List.tails]

theorem leadRun_le_lineBest (c : TargetColor) (l : List Pixel) :
    leadRun c l ≤ lineBest c l := by
  cases l with
  | nil => exact Nat.le_refl 0
  | cons p ps => rw [lineBest_cons]; exact Nat.le_max_left _ _

theorem leadRun_cons_match (c : TargetColor) (p : Pixel) (ps : List Pixel)
    (h : pixelMatches c p = true) : leadRun c (p :: ps) = leadRun c ps + 1 := by
  simp [leadRun, List.takeWhile, h]

theorem leadRun_cons_mismatch (c : TargetColor) (p : Pixel) (ps : List Pixel)
    (h : pixelMatches c p = false) : leadRun c (p :: ps) = 0 := by
  simp [leadRun, List.takeWhile, h]

/-- The streak loop computes the maximum of the incoming best, the leading
streak extended by the incoming credit, and the best streak of the line. -/
theorem scanLine_characterization (c : TargetColor) (l : List Pixel) :
    ∀ cur best, cur ≤ best →
      scanLine c l cur best = max best (max (cur + leadRun c l) (lineBest c l)) := by
  induction l with
  | nil =>
    intro cur best h
    simp [scanLine, leadRun, lineBest]
    omega
  | cons p ps ih =>
    intro cur best h
    by_cases hm : pixelMatches c p = true
    · rw [scanLine, if_pos hm, ih (cur + 1) (max best (cur + 1)) (Nat.le_max_right _ _),
        leadRun_cons_match c p ps hm, lineBest_cons]
      rw [leadRun_cons_match c p ps hm]
      omega
    · rw [scanLine, if_neg (by simp [Bool.not_eq_true] at hm ⊢; exact hm),
        ih 0 best (Nat.zero_le best),
        leadRun_cons_mismatch c p ps (by simpa using hm), lineBest_cons,
        leadRun_cons_mismatch c p ps (by simpa using hm)]
      have hle := leadRun_le_lineBest c ps
      omega

/-- With a fresh streak counter, the loop yields the maximum of the incoming
best and the best streak of the line. -/
theorem scanLine_zero (c : TargetColor) (l : List Pixel) (best : Nat) :
    scanLine c l 0 best = max best (lineBest c l) := by
  rw [scanLine_characterization c l 0 best (Nat.zero_le best)]
  have := leadRun_le_lineBest c l
  omega

theorem foldr_max_append (A B : List Nat) :
    (A ++ B).foldr max 0 = max (A.foldr max 0) (B.foldr max 0) := by
  induction A with
  | nil => simp
  | cons a A ih => simp [ih]; omega

theorem foldr_max_zero_of (L : List Nat) (h : ∀ x ∈ L, x = 0) :
    L.foldr max 0 = 0 := by
  induction L with
  | nil => rfl
  | cons a A ih =>
    simp only [List.foldr_cons]
    rw [h a (List.mem_cons_self a A), ih (fun x hx => h x (List.mem_cons_of_mem a hx))]
    omega

/-- Threading one `max_consecutive` accumulator through a sequence of scan
lines computes the maximum of the initial value and the per-line bests. -/
theorem foldl_scan_eq (c : TargetColor) (lines : List (List Pixel)) :
    ∀ b0 : Nat, lines.foldl (fun best l => scanLine c l 0 best) b0
      = max b0 ((lines.map (lineBest c)).foldr max 0) := by
  induction lines with
  | nil => intro b0; simp
  | cons l ls ih =>
    intro b0
    rw [List.foldl_cons, ih (scanLine c l 0 b0), scanLine_zero]
    simp only [List.map_cons, List.foldr_cons]
    omega

theorem rowPhase_eq (c : TargetColor) (img : NpImage) (b0 : Nat) :
    rowPhase c img b0 = max b0 ((img.map (lineBest c)).foldr max 0) :=
  foldl_scan_eq c img b0

theorem colPhase_eq (c : TargetColor) (img : NpImage) (b0 : Nat) :
    colPhase c img b0
      = max b0 ((((List.range (numCols img)).map (colAt img)).map (lineBest c)).foldr max 0) := by
  rw [colPhase, ← List.foldl_map (colAt img) (fun best l => scanLine c l 0 best)]
  exact foldl_scan_eq c _ b0

/-- The row loop followed by the column loop, sharing one running maximum,
computes exactly the maximum of all per-line best streaks over the rows and
the columns of the (sliced) image. -/
theorem maxConsecutive_eq_sliced (img : NpImage) (c : TargetColor) :
    maxConsecutive img c
      = ((sliceRGB img
            ++ (List.range (numCols (sliceRGB img))).map (colAt (sliceRGB img))).map
          (lineBest c)).foldr max 0 := by
  rw [maxConsecutive, colPhase_eq, rowPhase_eq, List.map_append, foldr_max_append]
  omega

/-- Specification-side pixel match from the spec's words: the first three
channel values all exactly equal the target color's three values. -/
def specMatches (c : TargetColor) (p : Pixel) : Bool := p.take 3 = colorChannels c

/-- Specification-side longest contiguous streak of spec-matching pixels in a
scan line (maximum over all suffixes of the matching-prefix length). -/
def specLineBest (c : TargetColor) (l : List Pixel) : Nat :=
  (l.tails.map (fun t => (t.takeWhile (specMatches c)).length)).foldr max 0

theorem lineBest_map_take (c : TargetColor) (l : List Pixel) :
    lineBest c (l.map (List.take 3)) = specLineBest c l := by
  unfold lineBest specLineBest leadRun
  rw [List.map_tails, List.map_map]
  congr 1
  refine List.map_congr_left (fun t _ => ?_)
  simp only [Function.comp_apply, List.takeWhile_map, List.length_map]
  rfl

theorem getD_map_take (row : List Pixel) : ∀ j : Nat,
    (row.map (List.take 3)).getD j [] = (row.getD j []).take 3 := by
  induction row with
  | nil => intro j; simp [List.getD]
  | cons a l ih =>
    intro j
    cases j with
    | zero => simp [List.getD]
    | succ n => simpa [List.getD] using ih n

theorem colAt_map_take (img : NpImage) (j : Nat) :
    colAt (img.map (fun row => row.map (List.take 3))) j
      = (colAt img j).map (List.take 3) := by
  unfold colAt
  rw [List.map_map, List.map_map]
  exact List.map_congr_left (fun row _ => getD_map_take row j)

theorem numCols_map_take (img : NpImage) :
    numCols (img.map (fun row => row.map (List.take 3))) = numCols img := by
  cases img with
  | nil => rfl
  | cons r rs => simp [numCols]

theorem lineBest_nil_row (c : TargetColor) : specLineBest c [] = 0 := rfl

/-- C5: for an image with at least three channels, the per-color value
computed by `check_consecutive_pixels` is the maximum over all rows and all
columns of the longest contiguous streak of pixels whose first three channel
values equal the target color. -/
theorem C5_scanner_reports_max_streak (img : NpImage) (c : TargetColor) (w k : Nat)
    (hrect : ∀ row ∈ img, row.length = w)
    (hk : 3 ≤ k)
    (hchan : ∀ row ∈ img, ∀ p ∈ row, p.length = k) :
    maxConsecutive img c
      = ((img ++ (List.range w).map (colAt img)).map (specLineBest c)).foldr max 0 := by
  rw [maxConsecutive_eq_sliced]
  rcases img with _ | ⟨r0, rest⟩
  · -- empty image: both sides are 0
    have hz : ∀ x ∈ (((List.range w).map (colAt ([] : NpImage))).map
        (specLineBest c)), x = 0 := by
      intro x hx
      rcases List.mem_map.mp hx with ⟨l, hl, rfl⟩
      rcases List.mem_map.mp hl with ⟨j, _, rfl⟩
      rfl
    simp only [List.nil_append]
    rw [foldr_max_zero_of _ hz]
    rfl
  rcases r0 with _ | ⟨p0, ps⟩
  · -- first row empty: by rectangularity every row is empty, both sides are 0
    have hw : w = 0 := (hrect [] (List.mem_cons_self _ _)).symm
    have hrows : ∀ row ∈ ([] :: rest : NpImage), row = [] := by
      intro row hrow
      exact List.length_eq_zero.mp ((hrect row hrow).trans hw)
    have hslice : sliceRGB ([] :: rest) = ([] :: rest : NpImage) := by
      rw [sliceRGB, if_neg]
      simp [pixDepth]
    rw [hslice]
    have hnc : numCols ([] :: rest : NpImage) = 0 := rfl
    rw [hnc, hw]
    simp only [List.range_zero, List.map_nil, List.append_nil]
    rw [foldr_max_zero_of, foldr_max_zero_of]
    · intro x hx
      rcases List.mem_map.mp hx with ⟨row, hrow, rfl⟩
      rw [hrows row hrow]
      rfl
    · intro x hx
      rcases List.mem_map.mp hx with ⟨row, hrow, rfl⟩
      rw [hrows row hrow]
      rfl
  · -- the image has a pixel: the RGB slice applies
    set img : NpImage := (p0 :: ps) :: rest with himg
    have hdepth : pixDepth img = k :=
      hchan (p0 :: ps) (List.mem_cons_self _ _) p0 (List.mem_cons_self _ _)
    have hslice : sliceRGB img = img.map (fun row => row.map (List.take 3)) := by
      rw [sliceRGB, if_pos (hdepth ▸ hk)]
    have hw : numCols img = w := hrect (p0 :: ps) (List.mem_cons_self _ _)
    rw [hslice, numCols_map_take, hw, List.map_append, List.map_append,
      foldr_max_append, foldr_max_append]
    have hrows : (img.map (fun row => row.map (List.take 3))).map (lineBest c)
        = img.map (specLineBest c) := by
      rw [List.map_map]
      exact List.map_congr_left (fun row _ => lineBest_map_take c row)
    have hcols : ((List.range w).map (colAt (img.map (fun row => row.map (List.take 3))))).map
          (lineBest c)
        = ((List.range w).map (colAt img)).map (specLineBest c) := by
      rw [List.map_map, List.map_map]
      refine List.map_congr_left (fun j _ => ?_)
      simp only [Function.comp_apply]
      rw [colAt_map_take]
      exact lineBest_map_take c (colAt img j)
    rw [hrows, hcols]

theorem C5_scanner_reports_max_streak_witness :
    maxConsecutive [[[255,255,255,7],[255,255,255,8]],[[0,0,0,9],[255,255,255,1]]]
        (255,255,255)
      = (([[[255,255,255,7],[255,255,255,8]],[[0,0,0,9],[255,255,255,1]]]
            ++ (List.range 2).map
              (colAt [[[255,255,255,7],[255,255,255,8]],[[0,0,0,9],[255,255,255,1]]])).map
          (specLineBest (255,255,255))).foldr max 0
      ∧ maxConsecutive [[[255,255,255,7],[255,255,255,8]],[[0,0,0,9],[255,255,255,1]]]
          (255,255,255) = 2 :=
  ⟨C5_scanner_reports_max_streak
      [[[255,255,255,7],[255,255,255,8]],[[0,0,0,9],[255,255,255,1]]]
      (255,255,255) 2 4 (by decide) (by decide) (by decide),
    by decide⟩

/-- `color_name` as in `check_consecutive_pixels`: `"white"` for pure white,
`"black"` for pure black, `str(color)` otherwise. -/
def color_name (c : TargetColor) : String :=
  if c = (255, 255, 255) then "white" else if c = (0, 0, 0) then "black" else toString c

/-- One per-file outcome of `check_consecutive_pixels`: the success dict
`{file, result, status: "success"}` or the error dict
`{file, error, status: "error"}`. -/
inductive ScanOutcome where
  | success (file : String) (result : List (String × Nat))
  | error (file : String) (msg : String)
deriving DecidableEq

/-- The filesystem as seen by the defect-detection path: existing files with
their decodable image content (`none` = the file exists but `Image.open` /
decoding raises, i.e. a corrupted image). -/
abbrev FileSystem := List (String × Option NpImage)

/-- `Image.open(image_path)` + `np.array`: `none` when the file is missing or
its content cannot be decoded. -/
def decodeImage (fs : FileSystem) (path : String) : Option NpImage :=
  match fs.find? (fun e => e.1 = path) with
  | some (_, some img) => some img
  | _ => none

/-- The default `colors` parameter: pure white and pure black. -/
def default_colors : List TargetColor := [(255, 255, 255), (0, 0, 0)]

/-- `check_consecutive_pixels(image_path, threshold, colors)`: decode the
image and compute the per-color maximum consecutive run; any exception
(decode failure) is caught and returned as an error outcome.  The `threshold`
parameter is accepted, as in the source, but never read by the body. -/
def check_consecutive_pixels (fs : FileSystem) (image_path : String)
    (threshold : Nat) (colors : List TargetColor) : ScanOutcome :=
  match decodeImage fs image_path with
  | none => ScanOutcome.error image_path "cannot identify image file"
  | some img =>
      ScanOutcome.success image_path
        (colors.map (fun c => (color_name c, maxConsecutive img c)))

/-- `file.lower().endswith('.png')`. -/
def endsWithPng (s : String) : Bool :=
  List.isSuffixOf ".png".data (s.data.map Char.toLower)

/-- `process_file`: scan `.png` files, return `None` for anything else. -/
def process_file (fs : FileSystem) (file_path : String) (threshold : Nat) :
    Option ScanOutcome :=
  if endsWithPng file_path then
    some (check_consecutive_pixels fs file_path threshold default_colors)
  else none

/-- The `os.walk` collection step of `scan_directory`: all existing paths
ending in `.png` (case-insensitively). -/
def collect_png_files (fs : FileSystem) : List String :=
  (fs.map Prod.fst).filter endsWithPng

/-- The worker-pool fan-out `pool.imap_unordered(process_func, all_files)`:
one outcome per input file.  Completion order is nondeterministic in the
source; the embedding fixes input order, and the properties proved about it
(length and per-status counts) are order-independent. -/
def pool_outcomes (fs : FileSystem) (files : List String) (threshold : Nat) :
    List (Option ScanOutcome) :=
  files.map (fun p => process_file fs p threshold)

/-- `detection_result.get(key, 0)`. -/
def resultLookup (res : List (String × Nat)) (k : String) : Nat :=
  ((res.find? (fun e => e.1 = k)).map Prod.snd).getD 0

/-- The caller's classification check in `scan_directory`:
`detection_result.get("white", 0) >= threshold or
detection_result.get("black", 0) >= threshold`. -/
def meetsThreshold (res : List (String × Nat)) (threshold : Nat) : Bool :=
  threshold ≤ resultLookup res "white" || threshold ≤ resultLookup res "black"

/-- The aggregation loop of `scan_directory`: keep only successful outcomes
whose white or black maximum meets the threshold. -/
def detectedOf (outcomes : List (Option ScanOutcome)) (threshold : Nat) :
    List (String × List (String × Nat)) :=
  outcomes.filterMap (fun o =>
    match o with
    | some (ScanOutcome.success f r) =>
        if meetsThreshold r threshold then some (f, r) else none
    | _ => none)

/-- `delete_file`: `os.remove` the path, reporting `False` (and leaving the
filesystem unchanged) when removal raises. -/
def delete_file (fs : FileSystem) (file_path : String) : FileSystem × Bool :=
  if fs.any (fun e => e.1 = file_path) then
    (fs.filter (fun e => e.1 ≠ file_path), true)
  else (fs, false)

/-- Summary returned by `scan_directory`: `{"detected": ..., "deleted": ...}`. -/
structure ScanSummary where
  detected : List (String × List (String × Nat))
  deleted : List String
deriving DecidableEq

/-- The post-scan user-judgment loop of `scan_directory` over the detected
results.  `open_with_preview` and `get_user_decision` are external,
caller-driven capabilities, modelled as the boolean functions `previewOk`
(the viewer opened) and `userWantsDelete` (the user chose deletion); in
auto-delete mode every detected file is deleted. -/
def decision_loop (auto_delete : Bool) (previewOk userWantsDelete : String → Bool) :
    List (String × List (String × Nat)) → FileSystem → List String × FileSystem
  | [], fs => ([], fs)
  | r :: rs, fs =>
    let wants := if auto_delete then true else previewOk r.1 && userWantsDelete r.1
    if wants then
      let dres := delete_file fs r.1
      if dres.2 then
        let res := decision_loop auto_delete previewOk userWantsDelete rs dres.1
        (r.1 :: res.1, res.2)
      else decision_loop auto_delete previewOk userWantsDelete rs dres.1
    else decision_loop auto_delete previewOk userWantsDelete rs fs

/-- `scan_directory`: collect the PNG files, fan them out to the pool, filter
detected results, then run the caller-driven keep/delete loop on the results.
Returns the summary and the final filesystem state. -/
def scan_directory (fs : FileSystem) (threshold : Nat) (auto_delete : Bool)
    (previewOk userWantsDelete : String → Bool) : ScanSummary × FileSystem :=
  let all_files := collect_png_files fs
  let outcomes := pool_outcomes fs all_files threshold
  let results := detectedOf outcomes threshold
  let dl := decision_loop auto_delete previewOk userWantsDelete results fs
  (⟨results, dl.1⟩, dl.2)

theorem pixelMatches_false_of_length (c : TargetColor) (p : Pixel)
    (h : p.length ≠ 3) : pixelMatches c p = false := by
  apply decide_eq_false
  intro hp
  exact h (by rw [hp]; rfl)

theorem lineBest_zero_of (c : TargetColor) (l : List Pixel)
    (h : ∀ p ∈ l, pixelMatches c p = false) : lineBest c l = 0 := by
  apply foldr_max_zero_of
  intro x hx
  rcases List.mem_map.mp hx with ⟨t, ht, rfl⟩
  have hsub : t <:+ l := by
    have := List.mem_tails t l
    exact this.mp ht
  cases t with
  | nil => rfl
  | cons q qs =>
    exact leadRun_cons_mismatch c q qs
      (h q (hsub.sublist.subset (List.mem_cons_self q qs)))

theorem getD_length_lt (row : List Pixel) (h : ∀ p ∈ row, p.length < 3) :
    ∀ j : Nat, (row.getD j []).length < 3 := by
  induction row with
  | nil => intro j; simp [List.getD]
  | cons a l ih =>
    intro j
    cases j with
    | zero => simpa [List.getD] using h a (List.mem_cons_self a l)
    | succ n =>
      simpa [List.getD] using
        ih (fun p hp => h p (List.mem_cons_of_mem a hp)) n

theorem sliceRGB_few_channels (img : NpImage)
    (h : ∀ row ∈ img, ∀ p ∈ row, p.length < 3) :
    ∀ row ∈ sliceRGB img, ∀ p ∈ row, p.length < 3 := by
  unfold sliceRGB
  by_cases hg : 3 ≤ pixDepth img
  · rw [if_pos hg]
    intro row hrow p hp
    rcases List.mem_map.mp hrow with ⟨row0, hrow0, rfl⟩
    rcases List.mem_map.mp hp with ⟨p0, hp0, rfl⟩
    calc (p0.take 3).length ≤ p0.length := by
          rw [List.length_take]; exact Nat.min_le_right _ _
      _ < 3 := h row0 hrow0 p0 hp0
  · rw [if_neg hg]; exact h

/-- The scanner's per-color value is 0 on any image all of whose pixels have
fewer than three channels. -/
theorem maxConsecutive_zero_of_few_channels (img : NpImage)
    (h : ∀ row ∈ img, ∀ p ∈ row, p.length < 3) (c : TargetColor) :
    maxConsecutive img c = 0 := by
  rw [maxConsecutive_eq_sliced]
  apply foldr_max_zero_of
  intro x hx
  rcases List.mem_map.mp hx with ⟨l, hl, rfl⟩
  have hfew := sliceRGB_few_channels img h
  apply lineBest_zero_of
  intro p hp
  apply pixelMatches_false_of_length
  rcases List.mem_append.mp hl with hrow | hcol
  · exact Nat.ne_of_lt (hfew l hrow p hp)
  · rcases List.mem_map.mp hcol with ⟨j, _, rfl⟩
    rcases List.mem_map.mp hp with ⟨row, hrow, rfl⟩
    exact Nat.ne_of_lt
      (getD_length_lt row (fun q hq => hfew row hrow q hq) j)

/-- C10 (counterexample part): a 2×2 grayscale image (1-channel pixels) has
per-color maxima 0 for both target colors, yet with a configured threshold of
0 the caller's classification in `scan_directory` marks the file as detected,
since `0 >= 0` holds. -/
theorem C10_grayscale_cex :
    maxConsecutive [[[7],[7]],[[7],[7]]] (255,255,255) = 0 ∧
    maxConsecutive [[[7],[7]],[[7],[7]]] (0,0,0) = 0 ∧
    (detectedOf
        (pool_outcomes [("g.png", some [[[7],[7]],[[7],[7]]])] ["g.png"] 0) 0).map
        Prod.fst = ["g.png"] := by
  refine ⟨by decide, by decide, by decide⟩

/-- C10 (amended): every pixel having fewer than three channels, the scanner
reports a maximum run of 0 for every target color, and for every positive
threshold the caller's white/black classification check fails, so the image
is never classified as detected. -/
theorem C10_few_channels_never_detected (img : NpImage)
    (h : ∀ row ∈ img, ∀ p ∈ row, p.length < 3) :
    (∀ c : TargetColor, maxConsecutive img c = 0) ∧
    (∀ threshold : Nat, 1 ≤ threshold →
      meetsThreshold
        (default_colors.map (fun c => (color_name c, maxConsecutive img c)))
        threshold = false) := by
  refine ⟨fun c => maxConsecutive_zero_of_few_channels img h c, ?_⟩
  intro threshold ht
  have hw := maxConsecutive_zero_of_few_channels img h (255,255,255)
  have hb := maxConsecutive_zero_of_few_channels img h (0,0,0)
  have hcw : color_name (255,255,255) = "white" := rfl
  have hcb : color_name (0,0,0) = "black" := rfl
  simp only [default_colors, List.map_cons, List.map_nil, hw, hb, hcw, hcb]
  have h1 : resultLookup [("white",0),("black",0)] "white" = 0 := rfl
  have h2 : resultLookup [("white",0),("black",0)] "black" = 0 := rfl
  simp only [meetsThreshold, h1, h2, Bool.or_self, decide_eq_false_iff_not]
  omega

theorem C10_few_channels_never_detected_witness :
    maxConsecutive [[[5],[5],[5]]] (255,255,255) = 0 ∧
    meetsThreshold
      (default_colors.map
        (fun c => (color_name c, maxConsecutive [[[5],[5],[5]]] c))) 100 = false :=
  ⟨(C10_few_channels_never_detected [[[5],[5],[5]]] (by decide)).1 (255,255,255),
    (C10_few_channels_never_detected [[[5],[5],[5]]] (by decide)).2 100 (by decide)⟩

/-- C7: the outcome of `check_consecutive_pixels` is independent of the
`threshold` parameter — the scanner never reads it; classification against
the threshold happens only in the caller (`scan_directory`). -/
theorem C7_scanner_threshold_agnostic (fs : FileSystem) (path : String)
    (t1 t2 : Nat) (colors : List TargetColor) :
    check_consecutive_pixels fs path t1 colors
      = check_consecutive_pixels fs path t2 colors := rfl

def isErrorOutcome : Option ScanOutcome → Bool
  | some (ScanOutcome.error _ _) => true
  | _ => false

def isSuccessOutcome : Option ScanOutcome → Bool
  | some (ScanOutcome.success _ _) => true
  | _ => false

theorem process_file_png (fs : FileSystem) (threshold : Nat) (f : String)
    (h : endsWithPng f = true) :
    process_file fs f threshold
      = some (check_consecutive_pixels fs f threshold default_colors) := by
  simp [process_file, h]

theorem countP_add_countP_not (l : List String) (p : String → Bool) :
    l.countP p + l.countP (fun a => !p a) = l.length := by
  induction l with
  | nil => rfl
  | cons a l ih =>
    simp only [List.countP_cons, List.length_cons]
    by_cases hp : p a = true <;> simp [hp] <;> omega

/-- C1: the batch over `N` `.png` files yields exactly one outcome per input
file; when exactly one file fails to decode, exactly one outcome has error
status and the remaining `N − 1` have success status. -/
theorem C1_one_outcome_per_file (fs : FileSystem) (files : List String)
    (threshold : Nat)
    (hpng : ∀ f ∈ files, endsWithPng f = true)
    (hone : files.countP (fun p => (decodeImage fs p).isNone) = 1) :
    (pool_outcomes fs files threshold).length = files.length ∧
    (pool_outcomes fs files threshold).countP isErrorOutcome = 1 ∧
    (pool_outcomes fs files threshold).countP isSuccessOutcome
      = files.length - 1 := by
  have herr : (pool_outcomes fs files threshold).countP isErrorOutcome
      = files.countP (fun p => (decodeImage fs p).isNone) := by
    rw [pool_outcomes, List.countP_map]
    apply List.countP_congr
    intro f hf
    simp only [Function.comp_apply]
    rw [process_file_png fs threshold f (hpng f hf)]
    cases hd : decodeImage fs f <;>
      simp [check_consecutive_pixels, hd, isErrorOutcome]
  have hsucc : (pool_outcomes fs files threshold).countP isSuccessOutcome
      = files.countP (fun p => !(decodeImage fs p).isNone) := by
    rw [pool_outcomes, List.countP_map]
    apply List.countP_congr
    intro f hf
    simp only [Function.comp_apply]
    rw [process_file_png fs threshold f (hpng f hf)]
    cases hd : decodeImage fs f <;>
      simp [check_consecutive_pixels, hd, isSuccessOutcome]
  have hlen : files.countP (fun p => (decodeImage fs p).isNone)
        + files.countP (fun p => !(decodeImage fs p).isNone)
      = files.length :=
    countP_add_countP_not files (fun p => (decodeImage fs p).isNone)
  refine ⟨List.length_map files _, herr.trans hone, ?_⟩
  rw [hsucc]
  omega

theorem C1_one_outcome_per_file_witness :
    (pool_outcomes
        [("a.png", some [[[0,0,0]]]), ("b.png", (none : Option NpImage)),
          ("c.png", some [[[1,2,3]]])]
        ["a.png", "b.png", "c.png"] 100).length = 3 ∧
    (pool_outcomes
        [("a.png", some [[[0,0,0]]]), ("b.png", (none : Option NpImage)),
          ("c.png", some [[[1,2,3]]])]
        ["a.png", "b.png", "c.png"] 100).countP isErrorOutcome = 1 ∧
    (pool_outcomes
        [("a.png", some [[[0,0,0]]]), ("b.png", (none : Option NpImage)),
          ("c.png", some [[[1,2,3]]])]
        ["a.png", "b.png", "c.png"] 100).countP isSuccessOutcome = 2 :=
  C1_one_outcome_per_file
    [("a.png", some [[[0,0,0]]]), ("b.png", (none : Option NpImage)),
      ("c.png", some [[[1,2,3]]])]
    ["a.png", "b.png", "c.png"] 100 (by decide) (by decide)

theorem decision_loop_deleted_subset (auto_delete : Bool)
    (previewOk userWantsDelete : String → Bool) :
    ∀ (rs : List (String × List (String × Nat))) (fs : FileSystem),
      ∀ p ∈ (decision_loop auto_delete previewOk userWantsDelete rs fs).1,
        p ∈ rs.map Prod.fst := by
  intro rs
  induction rs with
  | nil => intro fs p hp; simp [decision_loop] at hp
  | cons r rs ih =>
    intro fs p hp
    simp only [decision_loop] at hp
    by_cases hw : (if auto_delete then true
        else previewOk r.1 && userWantsDelete r.1) = true
    · rw [if_pos hw] at hp
      by_cases hd : (delete_file fs r.1).2 = true
      · rw [if_pos hd] at hp
        rcases List.mem_cons.mp hp with rfl | hp'
        · exact List.mem_cons_self _ _
        · exact List.mem_cons_of_mem _ (ih _ p hp')
      · rw [if_neg hd] at hp
        exact List.mem_cons_of_mem _ (ih _ p hp)
    · rw [if_neg hw] at hp
      exact List.mem_cons_of_mem _ (ih _ p hp)

theorem decision_loop_fs_filter (auto_delete : Bool)
    (previewOk userWantsDelete : String → Bool) :
    ∀ (rs : List (String × List (String × Nat))) (fs : FileSystem),
      (decision_loop auto_delete previewOk userWantsDelete rs fs).2
        = fs.filter (fun e =>
            decide (e.1 ∉ (decision_loop auto_delete previewOk userWantsDelete rs fs).1)) := by
  intro rs
  induction rs with
  | nil =>
    intro fs
    simp [decision_loop]
  | cons r rs ih =>
    intro fs
    simp only [decision_loop]
    by_cases hw : (if auto_delete then true
        else previewOk r.1 && userWantsDelete r.1) = true
    · rw [if_pos hw]
      by_cases hAny : fs.any (fun e => e.1 = r.1) = true
      · have hdel : delete_file fs r.1 = (fs.filter (fun e => e.1 ≠ r.1), true) := by
          rw [delete_file, if_pos hAny]
        have hsnd : (delete_file fs r.1).2 = true := by rw [hdel]
        have hfst : (delete_file fs r.1).1 = fs.filter (fun e => e.1 ≠ r.1) := by
          rw [hdel]
        rw [if_pos hsnd]
        dsimp only
        rw [hfst, ih (fs.filter (fun e => e.1 ≠ r.1)), List.filter_filter]
        apply List.filter_congr
        intro e _
        rw [← Bool.decide_and, decide_eq_decide, List.mem_cons]
        tauto
      · have hdel : delete_file fs r.1 = (fs, false) := by
          rw [delete_file, if_neg hAny]
        rw [hdel]
        simp only [Bool.false_eq_true, if_false]
        exact ih fs
    · rw [if_neg hw]
      exact ih fs

theorem decision_loop_keep_all (previewOk userWantsDelete : String → Bool)
    (h : ∀ p, userWantsDelete p = false) :
    ∀ (rs : List (String × List (String × Nat))) (fs : FileSystem),
      decision_loop false previewOk userWantsDelete rs fs = ([], fs) := by
  intro rs
  induction rs with
  | nil => intro fs; rfl
  | cons r rs ih =>
    intro fs
    have hw : (previewOk r.1 && userWantsDelete r.1) = false := by
      rw [h r.1, Bool.and_false]
    simp only [decision_loop, Bool.false_eq_true, if_false, hw]
    exact ih fs

/-- C2: the scanning path of `scan_directory` never writes or deletes a file:
the detected results are a pure function of the initial filesystem, every
deleted path comes from the detected results of the caller-driven
keep/delete loop, the final filesystem is exactly the initial one minus the
deleted paths, and when the caller keeps everything the filesystem is
untouched. -/
theorem C2_core_scan_read_only (fs : FileSystem) (threshold : Nat)
    (auto_delete : Bool) (previewOk userWantsDelete : String → Bool) :
    (∀ p ∈ (scan_directory fs threshold auto_delete previewOk userWantsDelete).1.deleted,
        p ∈ (scan_directory fs threshold auto_delete previewOk userWantsDelete).1.detected.map
          Prod.fst) ∧
    (scan_directory fs threshold auto_delete previewOk userWantsDelete).2
      = fs.filter (fun e =>
          decide (e.1 ∉ (scan_directory fs threshold auto_delete previewOk userWantsDelete).1.deleted)) ∧
    (auto_delete = false → (∀ p, userWantsDelete p = false) →
      (scan_directory fs threshold auto_delete previewOk userWantsDelete).2 = fs) := by
  refine ⟨?_, ?_, ?_⟩
  · intro p hp
    exact decision_loop_deleted_subset auto_delete previewOk userWantsDelete
      (detectedOf (pool_outcomes fs (collect_png_files fs) threshold) threshold) fs p hp
  · exact decision_loop_fs_filter auto_delete previewOk userWantsDelete
      (detectedOf (pool_outcomes fs (collect_png_files fs) threshold) threshold) fs
  · intro ha hu
    subst ha
    show (decision_loop false previewOk userWantsDelete
        (detectedOf (pool_outcomes fs (collect_png_files fs) threshold) threshold) fs).2 = fs
    rw [decision_loop_keep_all previewOk userWantsDelete hu]

theorem C2_core_scan_read_only_witness :
    (scan_directory [("a.png", some [[[255,255,255]]])] 1 false
        (fun _ => true) (fun _ => false)).2
      = [("a.png", some [[[255,255,255]]])] :=
  (C2_core_scan_read_only [("a.png", some [[[255,255,255]]])] 1 false
      (fun _ => true) (fun _ => false)).2.2 rfl (fun _ => rfl)

/-- Integer parsing of one captured group, modelling Python `int()` on the
strings captured by the coordinate pattern: an optional leading minus sign
followed by at least one decimal digit. -/
def digitsToNat : List Char → Nat → Option Nat
  | [], acc => some acc
  | c :: cs, acc =>
    if c.isDigit then digitsToNat cs (acc * 10 + (c.toNat - 48)) else none

def str_to_int (s : String) : Option Int :=
  match s.data with
  | [] => none
  | ['-'] => none
  | '-' :: ds => (digitsToNat ds 0).map (fun n => -(n : Int))
  | ds => (digitsToNat ds 0).map (fun n => (n : Int))

/-- The configurable `coordinate_pattern`: `re.compile(...).search(file_path)`
returning the captured groups, modelled as an arbitrary function from a path
to its captured group strings (the regex engine is external to this
repository). -/
abbrev CoordPattern := String → Option (List String)

/-- `z, x, y = map(int, match.groups())` with its `except ValueError:
continue`: succeeds only when there are exactly three groups, all parseable
integers. -/
def parseTriple (pat : CoordPattern) (path : String) : Option (Int × Int × Int) :=
  match pat path with
  | none => none
  | some gs =>
    match gs.mapM str_to_int with
    | some [z, x, y] => some (z, x, y)
    | _ => none

/-- The per-file eligibility test of the collection loop in
`detect_missing_tiles`: the hard-coded `.png` suffix check, the pattern
match, the integer parse, and the optional zoom-level filter
(`if zoom_level is not None and z != zoom_level: continue`). -/
def tileOf (pat : CoordPattern) (zoom_level : Option Int) (path : String) :
    Option (Int × Int × Int) :=
  if endsWithPng path then
    match parseTriple pat path with
    | some (z, x, y) =>
      match zoom_level with
      | some zl => if z = zl then some (z, x, y) else none
      | none => some (z, x, y)
    | none => none
  else none

/-- Per-zoom data of the index: `existing_tiles[z]` (a set, kept as a
duplicate-free list) and the running bounding box `min_x[z]`, `max_x[z]`,
`min_y[z]`, `max_y[z]`.  The `float('inf')` defaults of the source never
surface: a zoom's box entry is first written at that zoom's first insertion,
where `min(inf, v) = v` and `max(-inf, v) = v`, which is the first-insertion
case below. -/
structure ZoomData where
  coords : List (Int × Int)
  minX : Int
  maxX : Int
  minY : Int
  maxY : Int
deriving DecidableEq

/-- `existing_tiles` together with the box dictionaries, as an association
list whose key order is the first-encounter (insertion) order of the Python
dict. -/
abbrev TileIndex := List (Int × ZoomData)

def insertTile (idx : TileIndex) (z x y : Int) : TileIndex :=
  match idx with
  | [] => [(z, ⟨[(x, y)], x, x, y, y⟩)]
  | (z', d) :: rest =>
    if z' = z then
      (z', ⟨(if (x, y) ∈ d.coords then d.coords else (x, y) :: d.coords),
        min d.minX x, max d.maxX x, min d.minY y, max d.maxY y⟩) :: rest
    else (z', d) :: insertTile rest z x y

/-- One iteration of the collection loop: insert the file's coordinates when
it is eligible, otherwise leave the index unchanged. -/
def indexStep (pat : CoordPattern) (zoom_level : Option Int)
    (idx : TileIndex) (f : String) : TileIndex :=
  match tileOf pat zoom_level f with
  | some (z, x, y) => insertTile idx z x y
  | none => idx

/-- The collection loop of `detect_missing_tiles` over the ordered file
listing produced by `os.walk`. -/
def build_tile_index (files : List String) (pat : CoordPattern)
    (zoom_level : Option Int) : TileIndex :=
  files.foldl (indexStep pat zoom_level) []

/-- `existing_tiles[z]` lookup (empty when the zoom is absent). -/
def zoomCoords (idx : TileIndex) (z : Int) : List (Int × Int) :=
  ((idx.find? (fun e => e.1 = z)).map (fun e => e.2.coords)).getD []

/-- Python `range(a, b + 1)` over integers. -/
def intRange (a b : Int) : List Int :=
  (List.range (b + 1 - a).toNat).map (fun (i : Nat) => a + (i : Int))

structure MissingTile where
  z : Int
  x : Int
  y : Int
  neighbors : Nat
  expected : String
deriving DecidableEq

/-- The eight grid-adjacent coordinates checked by the gap heuristic. -/
def neighborList (x y : Int) : List (Int × Int) :=
  [(x-1, y), (x+1, y), (x, y-1), (x, y+1),
   (x-1, y-1), (x-1, y+1), (x+1, y-1), (x+1, y+1)]

/-- The per-cell step of the detection loop: nothing for present coordinates,
a `MissingTile` record when the absent cell has at least `min_neighbors`
present neighbors. -/
def cellRecord (z : Int) (d : ZoomData) (min_neighbors : Int) (x y : Int) :
    Option MissingTile :=
  if (x, y) ∈ d.coords then none
  else
    let n := (neighborList x y).countP (fun c => c ∈ d.coords)
    if min_neighbors ≤ (n : Int) then
      some ⟨z, x, y, n, s!"{z}/{x}/{y}.png"⟩
    else none

/-- The per-zoom detection loops: scan the padded interior range in ascending
x then ascending y. -/
def missingForZoom (z : Int) (d : ZoomData) (min_neighbors : Int) (pad : Int) :
    List MissingTile :=
  (intRange (d.minX + pad) (d.maxX - pad)).flatMap (fun x =>
    (intRange (d.minY + pad) (d.maxY - pad)).filterMap (fun y =>
      cellRecord z d min_neighbors x y))

/-- `detect_missing_tiles` as a function of the ordered file listing of the
walk and the configuration parameters: build the index; if it is empty,
report the explicitly signalled empty outcome; otherwise detect per zoom in
dict (first-encounter) order.  Returns the missing tiles and the index. -/
def detect_missing_tiles (files : List String) (pat : CoordPattern)
    (zoom_level : Option Int) (min_neighbors : Int) (boundary_padding : Int) :
    List MissingTile × TileIndex :=
  let idx := build_tile_index files pat zoom_level
  if idx.isEmpty then ([], idx)
  else
    (idx.flatMap (fun e => missingForZoom e.1 e.2 min_neighbors boundary_padding),
      idx)

/-- Splitting a path on `/`, structurally over its characters (used to build
concrete instances of the pattern capability). -/
def splitSlash : List Char → List (List Char)
  | [] => [[]]
  | c :: cs =>
    if c = '/' then [] :: splitSlash cs
    else
      match splitSlash cs with
      | [] => [[c]]
      | g :: gs => (c :: g) :: gs

/-- A concrete instance of the pattern capability corresponding to the
default regex `(\d+)/(\d+)/(\d+)\.png$` on three-segment relative paths:
the three segments are the captured groups, with the `.png` suffix stripped
from the last. -/
def tilePattern (s : String) : Option (List String) :=
  match splitSlash s.data with
  | [a, b, c] =>
    if List.isSuffixOf ".png".data c then
      some [String.mk a, String.mk b, String.mk (c.take (c.length - 4))]
    else none
  | _ => none

/-- The ordering the spec claims for the output of gap inference: zoom levels
ascending; within a zoom level ascending x, then ascending y. -/
def specAscendingOrder (l : List MissingTile) : Prop :=
  l.Pairwise (fun r1 r2 =>
    r1.z < r2.z ∨ (r1.z = r2.z ∧ (r1.x < r2.x ∨ (r1.x = r2.x ∧ r1.y < r2.y))))

/-- C3 (counterexample): when the walk encounters zoom level 5 before zoom
level 3, the records come out grouped as zoom 5 then zoom 3 — the dict
iteration `for z in existing_tiles` follows insertion order, not ascending
zoom order, so the claimed ordering fails. -/
theorem C3_ascending_zoom_cex :
    ((detect_missing_tiles
        ["5/0/0.png","5/0/1.png","5/0/2.png","5/1/0.png","5/1/2.png",
         "5/2/0.png","5/2/1.png","5/2/2.png",
         "3/0/0.png","3/0/1.png","3/0/2.png","3/1/0.png","3/1/2.png",
         "3/2/0.png","3/2/1.png","3/2/2.png"]
        tilePattern none 6 0).1.map (fun r => r.z) = [5, 3]) ∧
    ¬ specAscendingOrder (detect_missing_tiles
        ["5/0/0.png","5/0/1.png","5/0/2.png","5/1/0.png","5/1/2.png",
         "5/2/0.png","5/2/1.png","5/2/2.png",
         "3/0/0.png","3/0/1.png","3/0/2.png","3/1/0.png","3/1/2.png",
         "3/2/0.png","3/2/1.png","3/2/2.png"]
        tilePattern none 6 0).1 := by
  constructor
  · decide
  · unfold specAscendingOrder
    decide

theorem intRange_nil (a b : Int) (h : b < a) : intRange a b = [] := by
  unfold intRange
  have h0 : (b + 1 - a).toNat = 0 := by omega
  rw [h0]
  rfl

theorem intRange_pairwise (a b : Int) : (intRange a b).Pairwise (· < ·) := by
  unfold intRange
  rw [List.pairwise_map]
  refine (List.pairwise_lt_range _).imp ?_
  intro i j h
  show a + (i : Int) < a + (j : Int)
  omega

theorem cellRecord_eq_some (z : Int) (d : ZoomData) (mn : Int) (x y : Int)
    (rec : MissingTile) :
    cellRecord z d mn x y = some rec ↔
      (x, y) ∉ d.coords ∧
      mn ≤ (((neighborList x y).countP (fun c => c ∈ d.coords) : Nat) : Int) ∧
      rec = ⟨z, x, y, (neighborList x y).countP (fun c => c ∈ d.coords),
        s!"{z}/{x}/{y}.png"⟩ := by
  unfold cellRecord
  by_cases hmem : (x, y) ∈ d.coords
  · simp [hmem]
  · rw [if_neg hmem]
    dsimp only
    by_cases hn : mn ≤ (((neighborList x y).countP (fun c => c ∈ d.coords) : Nat) : Int)
    · rw [if_pos hn]
      constructor
      · intro h
        exact ⟨hmem, hn, (Option.some_inj.mp h).symm⟩
      · rintro ⟨-, -, rfl⟩
        rfl
    · rw [if_neg hn]
      constructor
      · intro h; exact absurd h (by simp)
      · rintro ⟨-, hn2, -⟩; exact absurd hn2 hn

/-- Every record emitted for a zoom comes from an interior cell with the
stated fields. -/
theorem mem_missingForZoom (z : Int) (d : ZoomData) (mn pad : Int)
    (rec : MissingTile) :
    rec ∈ missingForZoom z d mn pad ↔
      ∃ x ∈ intRange (d.minX + pad) (d.maxX - pad),
        ∃ y ∈ intRange (d.minY + pad) (d.maxY - pad),
          cellRecord z d mn x y = some rec := by
  unfold missingForZoom
  rw [List.mem_flatMap]
  constructor
  · rintro ⟨x, hx, hrec⟩
    rw [List.mem_filterMap] at hrec
    rcases hrec with ⟨y, hy, hf⟩
    exact ⟨x, hx, y, hy, hf⟩
  · rintro ⟨x, hx, y, hy, hf⟩
    exact ⟨x, hx, List.mem_filterMap.mpr ⟨y, hy, hf⟩⟩

theorem pairwise_filterMap_of {α β : Type} (R : α → α → Prop) (S : β → β → Prop)
    (f : α → Option β) (l : List α) (hl : l.Pairwise R)
    (h : ∀ a b, R a b → ∀ u, f a = some u → ∀ v, f b = some v → S u v) :
    (l.filterMap f).Pairwise S := by
  induction l with
  | nil => simp
  | cons a l ih =>
    rcases List.pairwise_cons.mp hl with ⟨hab, htail⟩
    cases hfa : f a with
    | none => simpa [List.filterMap_cons, hfa] using ih htail
    | some u =>
      rw [List.filterMap_cons, hfa]
      refine List.pairwise_cons.mpr ⟨?_, ih htail⟩
      intro v hv
      rcases List.mem_filterMap.mp hv with ⟨b, hb, hfb⟩
      exact h a b (hab b hb) u hfa v hfb

theorem pairwise_flatMap_of {α β : Type} (R : α → α → Prop) (S : β → β → Prop)
    (f : α → List β) (l : List α) (hl : l.Pairwise R)
    (hin : ∀ a ∈ l, (f a).Pairwise S)
    (hcross : ∀ a b, R a b → ∀ u ∈ f a, ∀ v ∈ f b, S u v) :
    (l.flatMap f).Pairwise S := by
  induction l with
  | nil => simp
  | cons a l ih =>
    rcases List.pairwise_cons.mp hl with ⟨hab, htail⟩
    rw [List.flatMap_cons, List.pairwise_append]
    refine ⟨hin a (List.mem_cons_self a l),
      ih htail (fun b hb => hin b (List.mem_cons_of_mem a hb)), ?_⟩
    intro u hu v hv
    rcases List.mem_flatMap.mp hv with ⟨b, hb, hvb⟩
    exact hcross a b (hab b hb) u hu v hvb

/-- The order actually satisfied by the output of gap inference, relative to
the first-encounter order of zoom levels in the walk: records of earlier-
encountered zooms first, and records of the same zoom in ascending x then
ascending y. -/
def recOrder (order : List Int) (r1 r2 : MissingTile) : Prop :=
  order.indexOf r1.z < order.indexOf r2.z ∨
    (r1.z = r2.z ∧ (r1.x < r2.x ∨ (r1.x = r2.x ∧ r1.y < r2.y)))

theorem cellRecord_fields (z : Int) (d : ZoomData) (mn x y : Int)
    (rec : MissingTile) (h : cellRecord z d mn x y = some rec) :
    rec.z = z ∧ rec.x = x ∧ rec.y = y := by
  rcases (cellRecord_eq_some z d mn x y rec).mp h with ⟨-, -, rfl⟩
  exact ⟨rfl, rfl, rfl⟩

theorem missingForZoom_pairwise (order : List Int) (z : Int) (d : ZoomData)
    (mn pad : Int) :
    (missingForZoom z d mn pad).Pairwise (recOrder order) := by
  unfold missingForZoom
  refine pairwise_flatMap_of (· < ·) (recOrder order) _ _
    (intRange_pairwise _ _) ?_ ?_
  · intro x _
    refine pairwise_filterMap_of (· < ·) (recOrder order) _ _
      (intRange_pairwise _ _) ?_
    intro y1 y2 hy u hu v hv
    rcases cellRecord_fields z d mn x y1 u hu with ⟨hz1, hx1, hy1'⟩
    rcases cellRecord_fields z d mn x y2 v hv with ⟨hz2, hx2, hy2'⟩
    right
    refine ⟨hz1.trans hz2.symm, Or.inr ⟨hx1.trans hx2.symm, ?_⟩⟩
    rw [hy1', hy2']
    exact hy
  · intro x1 x2 hx u hu v hv
    rcases List.mem_filterMap.mp hu with ⟨y1, -, hfu⟩
    rcases List.mem_filterMap.mp hv with ⟨y2, -, hfv⟩
    rcases cellRecord_fields z d mn x1 y1 u hfu with ⟨hz1, hx1, -⟩
    rcases cellRecord_fields z d mn x2 y2 v hfv with ⟨hz2, hx2, -⟩
    right
    refine ⟨hz1.trans hz2.symm, Or.inl ?_⟩
    rw [hx1, hx2]
    exact hx

/-- The dict keys of the index, in insertion order. -/
def zoomKeys (idx : TileIndex) : List Int := idx.map Prod.fst

theorem insertTile_keys (z x y : Int) : ∀ (idx : TileIndex),
    zoomKeys (insertTile idx z x y)
      = if z ∈ zoomKeys idx then zoomKeys idx else zoomKeys idx ++ [z] := by
  intro idx
  induction idx with
  | nil => simp [insertTile, zoomKeys]
  | cons e rest ih =>
    rcases e with ⟨z', d⟩
    by_cases hz : z' = z
    · subst hz
      simp [insertTile, zoomKeys, List.mem_cons]
    · rw [insertTile, if_neg hz]
      have hmem : (z ∈ zoomKeys ((z', d) :: rest)) ↔ z ∈ zoomKeys rest := by
        simp only [zoomKeys, List.map_cons, List.mem_cons]
        constructor
        · rintro (h | h)
          · exact absurd h.symm hz
          · exact h
        · exact Or.inr
      by_cases hzr : z ∈ zoomKeys rest
      · rw [if_pos (hmem.mpr hzr)]
        simp only [zoomKeys, List.map_cons]
        rw [show zoomKeys (insertTile rest z x y) = List.map Prod.fst (insertTile rest z x y) from rfl] at ih
        rw [ih, if_pos hzr]
        rfl
      · rw [if_neg (fun hc => hzr (hmem.mp hc))]
        simp only [zoomKeys, List.map_cons]
        rw [show zoomKeys (insertTile rest z x y) = List.map Prod.fst (insertTile rest z x y) from rfl] at ih
        rw [ih, if_neg hzr]
        rfl

theorem insertTile_keys_nodup (idx : TileIndex) (z x y : Int)
    (h : (zoomKeys idx).Nodup) : (zoomKeys (insertTile idx z x y)).Nodup := by
  rw [insertTile_keys]
  by_cases hz : z ∈ zoomKeys idx
  · rw [if_pos hz]; exact h
  · rw [if_neg hz]
    rw [List.nodup_append]
    refine ⟨h, List.nodup_singleton z, ?_⟩
    intro a ha hb
    rw [List.mem_singleton] at hb
    subst hb
    exact hz ha

/-- The zoom levels contributed by the eligible files, in walk order. -/
def eligibleZooms (pat : CoordPattern) (zoom_level : Option Int)
    (files : List String) : List Int :=
  files.filterMap (fun f => (tileOf pat zoom_level f).map (fun t => t.1))

/-- First-occurrence deduplication: the order in which distinct values first
appear in the input, i.e. the Python dict key order. -/
def firstOccurOrder : List Int → List Int
  | [] => []
  | z :: rest => z :: (firstOccurOrder rest).filter (fun w => w ≠ z)

theorem firstOccurOrder_nodup : ∀ l : List Int, (firstOccurOrder l).Nodup := by
  intro l
  induction l with
  | nil => exact List.Pairwise.nil
  | cons z rest ih =>
    rw [firstOccurOrder]
    refine List.Pairwise.cons ?_ (ih.filter _)
    intro w hw
    have hne := List.of_mem_filter hw
    simp only [decide_eq_true_eq] at hne
    exact fun he => hne he.symm

theorem foldl_indexStep_keys (pat : CoordPattern) (zl : Option Int) :
    ∀ (files : List String) (idx : TileIndex),
      zoomKeys (files.foldl (indexStep pat zl) idx)
        = zoomKeys idx
          ++ (firstOccurOrder (eligibleZooms pat zl files)).filter
              (fun w => w ∉ zoomKeys idx) := by
  intro files
  induction files with
  | nil => intro idx; simp [eligibleZooms, firstOccurOrder]
  | cons f fs ih =>
    intro idx
    rw [List.foldl_cons]
    cases hf : tileOf pat zl f with
    | none =>
      have hstep : indexStep pat zl idx f = idx := by rw [indexStep, hf]
      have hez : eligibleZooms pat zl (f :: fs) = eligibleZooms pat zl fs := by
        simp [eligibleZooms, List.filterMap_cons, hf]
      rw [hstep, hez, ih idx]
    | some t =>
      rcases t with ⟨z, x, y⟩
      have hstep : indexStep pat zl idx f = insertTile idx z x y := by
        rw [indexStep, hf]
      have hez : eligibleZooms pat zl (f :: fs) = z :: eligibleZooms pat zl fs := by
        simp [eligibleZooms, List.filterMap_cons, hf]
      rw [hstep, hez, ih (insertTile idx z x y), insertTile_keys, firstOccurOrder]
      by_cases hz : z ∈ zoomKeys idx
      · rw [if_pos hz]
        rw [List.filter_cons]
        have hzf : (decide (z ∉ zoomKeys idx)) = false := by
          simp [hz]
        rw [hzf]
        simp only [Bool.false_eq_true, if_false]
        rw [List.filter_filter]
        congr 1
        apply List.filter_congr
        intro w _
        by_cases hwz : w = z
        · subst hwz
          simp [hz]
        · simp [hwz]
      · rw [if_neg hz]
        rw [List.filter_cons]
        have hzf : (decide (z ∉ zoomKeys idx)) = true := by
          simp [hz]
        rw [hzf]
        simp only [if_true]
        rw [List.filter_filter, List.append_assoc, List.singleton_append]
        congr 2
        apply List.filter_congr
        intro w _
        rw [← Bool.decide_and, decide_eq_decide]
        simp only [List.mem_append, List.mem_singleton, not_or]

theorem build_keys (files : List String) (pat : CoordPattern) (zl : Option Int) :
    zoomKeys (build_tile_index files pat zl)
      = firstOccurOrder (eligibleZooms pat zl files) := by
  rw [build_tile_index, foldl_indexStep_keys]
  show [] ++ _ = _
  rw [List.nil_append]
  apply List.filter_eq_self.mpr
  intro w _
  simp [zoomKeys]

theorem build_keys_nodup (files : List String) (pat : CoordPattern)
    (zl : Option Int) : (zoomKeys (build_tile_index files pat zl)).Nodup := by
  rw [build_keys]
  exact firstOccurOrder_nodup _

theorem nodup_indexOf_pairwise : ∀ l : List Int, l.Nodup →
    l.Pairwise (fun a b => l.indexOf a < l.indexOf b) := by
  intro l
  induction l with
  | nil => intro _; exact List.Pairwise.nil
  | cons a l ih =>
    intro h
    rcases List.pairwise_cons.mp h with ⟨ha, hl⟩
    refine List.pairwise_cons.mpr ⟨?_, ?_⟩
    · intro b hb
      rw [List.indexOf_cons_self, List.indexOf_cons_ne l (ha b hb)]
      omega
    · refine (ih hl).imp_of_mem ?_
      intro x y hx hy hxy
      rw [List.indexOf_cons_ne l (ha x hx), List.indexOf_cons_ne l (ha y hy)]
      omega

theorem index_pairwise_indexOf (idx : TileIndex) (h : (zoomKeys idx).Nodup) :
    idx.Pairwise (fun e1 e2 =>
      (zoomKeys idx).indexOf e1.1 < (zoomKeys idx).indexOf e2.1) := by
  have hp := nodup_indexOf_pairwise (zoomKeys idx) h
  unfold zoomKeys at hp
  rw [List.pairwise_map] at hp
  exact hp

theorem mem_missing_z (z : Int) (d : ZoomData) (mn pad : Int)
    (rec : MissingTile) (h : rec ∈ missingForZoom z d mn pad) : rec.z = z := by
  rcases (mem_missingForZoom z d mn pad rec).mp h with ⟨x, -, y, -, hc⟩
  exact (cellRecord_fields z d mn x y rec hc).1

/-- C3 (amended): the records of gap inference are grouped by zoom level in
the first-encounter (walk/insertion) order of the zoom levels — not in
ascending zoom order — and within each zoom level they are emitted in
ascending x, then ascending y. -/
theorem C3_records_in_encounter_order (files : List String) (pat : CoordPattern)
    (zoom_level : Option Int) (mn pad : Int) :
    (detect_missing_tiles files pat zoom_level mn pad).1.Pairwise
      (recOrder (firstOccurOrder (eligibleZooms pat zoom_level files))) := by
  rw [detect_missing_tiles]
  by_cases hempty : (build_tile_index files pat zoom_level).isEmpty = true
  · rw [if_pos hempty]
    exact List.Pairwise.nil
  · rw [if_neg hempty]
    dsimp only
    refine pairwise_flatMap_of
      (fun e1 e2 =>
        (zoomKeys (build_tile_index files pat zoom_level)).indexOf e1.1
          < (zoomKeys (build_tile_index files pat zoom_level)).indexOf e2.1)
      (recOrder (firstOccurOrder (eligibleZooms pat zoom_level files)))
      _ _ (index_pairwise_indexOf _ (build_keys_nodup files pat zoom_level)) ?_ ?_
    · intro e _
      exact missingForZoom_pairwise _ e.1 e.2 mn pad
    · intro e1 e2 hlt u hu v hv
      left
      rw [mem_missing_z e1.1 e1.2 mn pad u hu, mem_missing_z e2.1 e2.2 mn pad v hv,
        ← build_keys files pat zoom_level]
      exact hlt

theorem find?_eq_of_mem_nodup : ∀ (idx : TileIndex), (zoomKeys idx).Nodup →
    ∀ (z : Int) (d : ZoomData), (z, d) ∈ idx →
      idx.find? (fun e => e.1 = z) = some (z, d) := by
  intro idx
  induction idx with
  | nil => intro _ z d h; simp at h
  | cons e rest ih =>
    intro hnd z d hmem
    rcases e with ⟨z1, d1⟩
    have hcons : (z1 :: zoomKeys rest).Nodup := by
      simpa [zoomKeys] using hnd
    have hhead : z1 ∉ zoomKeys rest := (List.nodup_cons.mp hcons).1
    have htail : (zoomKeys rest).Nodup := (List.nodup_cons.mp hcons).2
    rcases List.mem_cons.mp hmem with heq | hmem'
    · injection heq with h1 h2
      subst h1
      subst h2
      rw [List.find?_cons_of_pos _ (by simp)]
    · by_cases hz : z1 = z
      · subst hz
        exact absurd (List.mem_map.mpr ⟨(z1, d), hmem', rfl⟩) hhead
      · rw [List.find?_cons_of_neg _ (by simp [hz])]
        exact ih htail z d hmem'

theorem zoomCoords_of_mem_nodup (idx : TileIndex) (h : (zoomKeys idx).Nodup)
    (z : Int) (d : ZoomData) (hmem : (z, d) ∈ idx) :
    zoomCoords idx z = d.coords := by
  unfold zoomCoords
  rw [find?_eq_of_mem_nodup idx h z d hmem]
  rfl

theorem index_entry_unique (idx : TileIndex) (h : (zoomKeys idx).Nodup)
    (z : Int) (d1 d2 : ZoomData) (h1 : (z, d1) ∈ idx) (h2 : (z, d2) ∈ idx) :
    d1 = d2 := by
  have e1 := find?_eq_of_mem_nodup idx h z d1 h1
  have e2 := find?_eq_of_mem_nodup idx h z d2 h2
  rw [e1] at e2
  exact congrArg Prod.snd (Option.some_inj.mp e2)

/-- C6: every produced MissingTileRecord has a neighbor count between
`min_neighbors` and 8 and refers to a coordinate absent from the index for
its zoom level. -/
theorem C6_record_invariants (files : List String) (pat : CoordPattern)
    (zoom_level : Option Int) (mn pad : Int) (rec : MissingTile)
    (hrec : rec ∈ (detect_missing_tiles files pat zoom_level mn pad).1) :
    mn ≤ (rec.neighbors : Int) ∧ rec.neighbors ≤ 8 ∧
      (rec.x, rec.y) ∉
        zoomCoords (detect_missing_tiles files pat zoom_level mn pad).2 rec.z := by
  rw [detect_missing_tiles] at hrec ⊢
  by_cases hempty : (build_tile_index files pat zoom_level).isEmpty = true
  · rw [if_pos hempty] at hrec
    simp at hrec
  · rw [if_neg hempty] at hrec ⊢
    dsimp only at hrec ⊢
    rcases List.mem_flatMap.mp hrec with ⟨e, he, hin⟩
    rcases (mem_missingForZoom e.1 e.2 mn pad rec).mp hin with ⟨x, -, y, -, hc⟩
    rcases (cellRecord_eq_some e.1 e.2 mn x y rec).mp hc with ⟨hnotmem, hn, rfl⟩
    refine ⟨hn, ?_, ?_⟩
    · calc (neighborList x y).countP (fun c => c ∈ e.2.coords)
          ≤ (neighborList x y).length := List.countP_le_length _
        _ = 8 := rfl
    · show (x, y) ∉ zoomCoords (build_tile_index files pat zoom_level) e.1
      rw [zoomCoords_of_mem_nodup _ (build_keys_nodup files pat zoom_level) e.1 e.2
        (by rw [Prod.mk.eta]; exact he)]
      exact hnotmem

theorem C6_record_invariants_witness :
    (6 : Int) ≤ ((⟨3, 1, 1, 8, "3/1/1.png"⟩ : MissingTile).neighbors : Int) ∧
    (⟨3, 1, 1, 8, "3/1/1.png"⟩ : MissingTile).neighbors ≤ 8 ∧
    ((⟨3, 1, 1, 8, "3/1/1.png"⟩ : MissingTile).x,
      (⟨3, 1, 1, 8, "3/1/1.png"⟩ : MissingTile).y) ∉
      zoomCoords (detect_missing_tiles
        ["3/0/0.png","3/0/1.png","3/0/2.png","3/1/0.png","3/1/2.png",
         "3/2/0.png","3/2/1.png","3/2/2.png"]
        tilePattern none 6 0).2 (⟨3, 1, 1, 8, "3/1/1.png"⟩ : MissingTile).z :=
  C6_record_invariants
    ["3/0/0.png","3/0/1.png","3/0/2.png","3/1/0.png","3/1/2.png",
     "3/2/0.png","3/2/1.png","3/2/2.png"]
    tilePattern none 6 0 ⟨3, 1, 1, 8, "3/1/1.png"⟩ (by decide)

/-- C8: when boundary padding makes a zoom's interior range empty or
inverted, gap inference produces no record for that zoom — and, being a total
function of the index, it raises no error — regardless of actual gaps. -/
theorem C8_degenerate_interior (files : List String) (pat : CoordPattern)
    (zoom_level : Option Int) (mn pad : Int) (z : Int) (d : ZoomData)
    (hmem : (z, d) ∈ (detect_missing_tiles files pat zoom_level mn pad).2)
    (hdeg : d.maxX - pad < d.minX + pad ∨ d.maxY - pad < d.minY + pad) :
    ∀ rec ∈ (detect_missing_tiles files pat zoom_level mn pad).1, rec.z ≠ z := by
  intro rec hrec
  rw [detect_missing_tiles] at hrec hmem
  by_cases hempty : (build_tile_index files pat zoom_level).isEmpty = true
  · rw [if_pos hempty] at hrec
    simp at hrec
  · rw [if_neg hempty] at hrec hmem
    dsimp only at hrec hmem
    rcases List.mem_flatMap.mp hrec with ⟨e, he, hin⟩
    have hz := mem_missing_z e.1 e.2 mn pad rec hin
    intro hzz
    have hez : e.1 = z := hz.symm.trans hzz
    have he' : (z, e.2) ∈ build_tile_index files pat zoom_level := by
      rw [← hez, Prod.mk.eta]
      exact he
    have hed : e.2 = d :=
      index_entry_unique _ (build_keys_nodup files pat zoom_level) z e.2 d he' hmem
    rcases (mem_missingForZoom e.1 e.2 mn pad rec).mp hin with ⟨x, hx, y, hy, -⟩
    rcases hdeg with hdx | hdy
    · rw [hed, intRange_nil _ _ hdx] at hx
      exact absurd hx (List.not_mem_nil x)
    · rw [hed, intRange_nil _ _ hdy] at hy
      exact absurd hy (List.not_mem_nil y)

theorem C8_degenerate_interior_witness :
    (⟨3, 1, 1, 8, "3/1/1.png"⟩ : MissingTile).z ≠ 9 ∧
    (detect_missing_tiles
        ["3/0/0.png","3/0/1.png","3/0/2.png","3/1/0.png","3/1/2.png",
         "3/2/0.png","3/2/1.png","3/2/2.png","9/4/7.png"]
        tilePattern none 6 1).1.map (fun r => (r.z, r.x, r.y)) = [(3, 1, 1)] :=
  ⟨C8_degenerate_interior
      ["3/0/0.png","3/0/1.png","3/0/2.png","3/1/0.png","3/1/2.png",
       "3/2/0.png","3/2/1.png","3/2/2.png","9/4/7.png"]
      tilePattern none 6 1 9 ⟨[(4, 7)], 4, 4, 7, 7⟩ (by decide) (by decide)
      ⟨3, 1, 1, 8, "3/1/1.png"⟩ (by decide),
    by decide⟩

theorem tileOf_none_of_pat_none (pat : CoordPattern) (zl : Option Int)
    (f : String) (h : pat f = none) : tileOf pat zl f = none := by
  simp [tileOf, parseTriple, h]

theorem build_eq_nil : ∀ (files : List String) (pat : CoordPattern)
    (zl : Option Int), (∀ f ∈ files, tileOf pat zl f = none) →
    build_tile_index files pat zl = [] := by
  intro files pat zl
  unfold build_tile_index
  induction files with
  | nil => intro _; rfl
  | cons f fs ih =>
    intro h
    rw [List.foldl_cons]
    have hstep : indexStep pat zl [] f = [] := by
      rw [indexStep, h f (List.mem_cons_self f fs)]
    rw [hstep]
    exact ih (fun g hg => h g (List.mem_cons_of_mem f hg))

theorem insertTile_ne_nil (idx : TileIndex) (z x y : Int) :
    insertTile idx z x y ≠ [] := by
  cases idx with
  | nil => simp [insertTile]
  | cons e rest =>
    rcases e with ⟨z', d⟩
    rw [insertTile]
    by_cases hz : z' = z <;> simp [hz]

theorem foldl_indexStep_ne_nil (pat : CoordPattern) (zl : Option Int) :
    ∀ (files : List String) (idx : TileIndex), idx ≠ [] →
      files.foldl (indexStep pat zl) idx ≠ [] := by
  intro files
  induction files with
  | nil => intro idx h; exact h
  | cons f fs ih =>
    intro idx h
    rw [List.foldl_cons]
    apply ih
    cases ht : tileOf pat zl f with
    | none =>
      rw [indexStep, ht]
      exact h
    | some t =>
      rcases t with ⟨z, x, y⟩
      rw [indexStep, ht]
      exact insertTile_ne_nil idx z x y

theorem build_ne_nil : ∀ (files : List String) (pat : CoordPattern)
    (zl : Option Int), (∃ f ∈ files, (tileOf pat zl f).isSome) →
    build_tile_index files pat zl ≠ [] := by
  intro files pat zl
  unfold build_tile_index
  induction files with
  | nil => rintro ⟨f, hf, -⟩; simp at hf
  | cons f fs ih =>
    rintro ⟨g, hg, hsome⟩
    rw [List.foldl_cons]
    rcases List.mem_cons.mp hg with rfl | hg'
    · cases ht : tileOf pat zl g with
      | none => rw [ht] at hsome; simp at hsome
      | some t =>
        rcases t with ⟨z, x, y⟩
        apply foldl_indexStep_ne_nil
        rw [indexStep, ht]
        exact insertTile_ne_nil [] z x y
    · by_cases hnil : indexStep pat zl [] f = []
      · rw [hnil]
        exact ih ⟨g, hg', hsome⟩
      · exact foldl_indexStep_ne_nil pat zl fs _ hnil

/-- C9: a walk yielding no file that matches the coordinate pattern completes
with the explicitly signalled empty outcome — an empty missing-tile list and
an empty index — while a walk with at least one eligible file produces a
non-empty index, so the empty outcome is distinguishable from a non-empty
index that happens to yield zero gaps. -/
theorem C9_empty_walk_signalled (files : List String) (pat : CoordPattern)
    (zoom_level : Option Int) (mn pad : Int) :
    ((∀ f ∈ files, pat f = none) →
      detect_missing_tiles files pat zoom_level mn pad = ([], [])) ∧
    ((∃ f ∈ files, (tileOf pat zoom_level f).isSome) →
      (detect_missing_tiles files pat zoom_level mn pad).2 ≠ []) := by
  constructor
  · intro h
    have hb : build_tile_index files pat zoom_level = [] :=
      build_eq_nil files pat zoom_level
        (fun f hf => tileOf_none_of_pat_none pat zoom_level f (h f hf))
    rw [detect_missing_tiles, hb]
    rfl
  · intro h
    have hb := build_ne_nil files pat zoom_level h
    rw [detect_missing_tiles]
    by_cases hempty : (build_tile_index files pat zoom_level).isEmpty = true
    · exact absurd (List.isEmpty_iff.mp hempty) hb
    · rw [if_neg hempty]
      exact hb

theorem C9_empty_walk_signalled_witness :
    detect_missing_tiles ["readme.txt"] (fun _ => none) none 6 1 = ([], []) ∧
    (detect_missing_tiles ["4/1/2.png"] tilePattern none 6 1).2 ≠ [] :=
  ⟨(C9_empty_walk_signalled ["readme.txt"] (fun _ => none) none 6 1).1
      (fun _ _ => rfl),
    (C9_empty_walk_signalled ["4/1/2.png"] tilePattern none 6 1).2
      ⟨"4/1/2.png", by decide, by decide⟩⟩

theorem zoomCoords_nil (z' : Int) : zoomCoords [] z' = [] := rfl

theorem zoomCoords_cons_pos (z1 : Int) (d : ZoomData) (rest : TileIndex) :
    zoomCoords ((z1, d) :: rest) z1 = d.coords := by
  unfold zoomCoords
  rw [List.find?_cons_of_pos _ (by simp)]
  rfl

theorem zoomCoords_cons_neg (z1 : Int) (d : ZoomData) (rest : TileIndex)
    (z' : Int) (h : z1 ≠ z') :
    zoomCoords ((z1, d) :: rest) z' = zoomCoords rest z' := by
  unfold zoomCoords
  rw [List.find?_cons_of_neg _ (by simp [h])]

theorem zoomCoords_insertTile (z x y z' a b : Int) : ∀ (idx : TileIndex),
    ((a, b) ∈ zoomCoords (insertTile idx z x y) z' ↔
      ((a, b) ∈ zoomCoords idx z' ∨ (z' = z ∧ a = x ∧ b = y))) := by
  intro idx
  induction idx with
  | nil =>
    rw [show insertTile [] z x y = [(z, ⟨[(x, y)], x, x, y, y⟩)] from rfl]
    by_cases hz : z = z'
    · subst hz
      rw [zoomCoords_cons_pos, zoomCoords_nil]
      simp [Prod.ext_iff]
    · rw [zoomCoords_cons_neg z _ [] z' hz, zoomCoords_nil]
      constructor
      · intro h
        exact absurd h (List.not_mem_nil _)
      · rintro (h | ⟨h, -, -⟩)
        · exact h
        · exact absurd h.symm hz
  | cons e rest ih =>
    rcases e with ⟨z1, d⟩
    by_cases h1 : z1 = z
    · subst h1
      rw [show insertTile ((z1, d) :: rest) z1 x y
          = (z1, ⟨(if (x, y) ∈ d.coords then d.coords else (x, y) :: d.coords),
              min d.minX x, max d.maxX x, min d.minY y, max d.maxY y⟩) :: rest
        from by rw [insertTile, if_pos rfl]]
      by_cases h2 : z1 = z'
      · subst h2
        rw [zoomCoords_cons_pos, zoomCoords_cons_pos]
        dsimp only
        by_cases hmm : (x, y) ∈ d.coords
        · rw [if_pos hmm]
          constructor
          · exact Or.inl
          · rintro (h | ⟨-, rfl, rfl⟩)
            · exact h
            · exact hmm
        · rw [if_neg hmm, List.mem_cons]
          constructor
          · rintro (h | h)
            · right
              exact ⟨rfl, (Prod.ext_iff.mp h).1, (Prod.ext_iff.mp h).2⟩
            · exact Or.inl h
          · rintro (h | ⟨-, rfl, rfl⟩)
            · exact Or.inr h
            · exact Or.inl rfl
      · rw [zoomCoords_cons_neg _ _ _ _ h2, zoomCoords_cons_neg _ _ _ _ h2]
        constructor
        · exact Or.inl
        · rintro (h | ⟨h, -, -⟩)
          · exact h
          · exact absurd h.symm h2
    · rw [show insertTile ((z1, d) :: rest) z x y = (z1, d) :: insertTile rest z x y
        from by rw [insertTile, if_neg h1]]
      by_cases h2 : z1 = z'
      · subst h2
        rw [zoomCoords_cons_pos, zoomCoords_cons_pos]
        have hne : ¬ (z1 = z ∧ a = x ∧ b = y) := fun hc => h1 hc.1
        constructor
        · exact Or.inl
        · rintro (h | hc)
          · exact h
          · exact absurd hc.1 h1
      · rw [zoomCoords_cons_neg _ _ _ _ h2, zoomCoords_cons_neg _ _ _ _ h2]
        exact ih

theorem zoomCoords_foldl (pat : CoordPattern) (zl : Option Int) :
    ∀ (files : List String) (idx : TileIndex) (z a b : Int),
      ((a, b) ∈ zoomCoords (files.foldl (indexStep pat zl) idx) z ↔
        ((a, b) ∈ zoomCoords idx z ∨
          ∃ f ∈ files, tileOf pat zl f = some (z, a, b))) := by
  intro files
  induction files with
  | nil =>
    intro idx z a b
    simp
  | cons f fs ih =>
    intro idx z a b
    rw [List.foldl_cons]
    cases ht : tileOf pat zl f with
    | none =>
      rw [show indexStep pat zl idx f = idx from by rw [indexStep, ht]]
      rw [ih idx z a b]
      constructor
      · rintro (h | h)
        · exact Or.inl h
        · rcases h with ⟨g, hg, hsome⟩
          exact Or.inr ⟨g, List.mem_cons_of_mem f hg, hsome⟩
      · rintro (h | ⟨g, hg, hsome⟩)
        · exact Or.inl h
        · rcases List.mem_cons.mp hg with rfl | hg'
          · rw [ht] at hsome
            exact absurd hsome (by simp)
          · exact Or.inr ⟨g, hg', hsome⟩
    | some t =>
      rcases t with ⟨z0, x0, y0⟩
      rw [show indexStep pat zl idx f = insertTile idx z0 x0 y0
        from by rw [indexStep, ht]]
      rw [ih (insertTile idx z0 x0 y0) z a b, zoomCoords_insertTile]
      constructor
      · rintro ((h | ⟨rfl, rfl, rfl⟩) | ⟨g, hg, hsome⟩)
        · exact Or.inl h
        · exact Or.inr ⟨f, List.mem_cons_self f fs, ht⟩
        · exact Or.inr ⟨g, List.mem_cons_of_mem f hg, hsome⟩
      · rintro (h | ⟨g, hg, hsome⟩)
        · exact Or.inl (Or.inl h)
        · rcases List.mem_cons.mp hg with rfl | hg'
          · rw [ht] at hsome
            have := Option.some_inj.mp hsome
            injection this with hz hrest
            injection hrest with hx hy
            exact Or.inl (Or.inr ⟨hz.symm, hx.symm, hy.symm⟩)
          · exact Or.inr ⟨g, hg', hsome⟩

theorem insertTile_boxCovers (z x y : Int) : ∀ (idx : TileIndex),
    (∀ z' d', (z', d') ∈ idx →
      ∀ p ∈ d'.coords, d'.minX ≤ p.1 ∧ p.1 ≤ d'.maxX ∧ d'.minY ≤ p.2 ∧ p.2 ≤ d'.maxY) →
    ∀ z' d', (z', d') ∈ insertTile idx z x y →
      ∀ p ∈ d'.coords, d'.minX ≤ p.1 ∧ p.1 ≤ d'.maxX ∧ d'.minY ≤ p.2 ∧ p.2 ≤ d'.maxY := by
  intro idx
  induction idx with
  | nil =>
    intro _ z' d' hmem p hp
    rw [show insertTile [] z x y = [(z, ⟨[(x, y)], x, x, y, y⟩)] from rfl] at hmem
    rcases List.mem_singleton.mp hmem with heq
    injection heq with he1 he2
    subst he2
    rcases List.mem_singleton.mp hp with rfl
    exact ⟨Int.le_refl x, Int.le_refl x, Int.le_refl y, Int.le_refl y⟩
  | cons e rest ih =>
    rcases e with ⟨z1, d⟩
    intro h z' d' hmem p hp
    by_cases h1 : z1 = z
    · subst h1
      rw [show insertTile ((z1, d) :: rest) z1 x y
          = (z1, ⟨(if (x, y) ∈ d.coords then d.coords else (x, y) :: d.coords),
              min d.minX x, max d.maxX x, min d.minY y, max d.maxY y⟩) :: rest
        from by rw [insertTile, if_pos rfl]] at hmem
      rcases List.mem_cons.mp hmem with heq | hmem'
      · injection heq with he1 he2
        subst he2
        dsimp only at hp ⊢
        by_cases hmm : (x, y) ∈ d.coords
        · rw [if_pos hmm] at hp
          obtain ⟨c1, c2, c3, c4⟩ := h z1 d (List.mem_cons_self _ _) p hp
          refine ⟨?_, ?_, ?_, ?_⟩ <;> omega
        · rw [if_neg hmm] at hp
          rcases List.mem_cons.mp hp with rfl | hp'
          · refine ⟨?_, ?_, ?_, ?_⟩ <;> simp <;> omega
          · obtain ⟨c1, c2, c3, c4⟩ := h z1 d (List.mem_cons_self _ _) p hp'
            refine ⟨?_, ?_, ?_, ?_⟩ <;> omega
      · exact h z' d' (List.mem_cons_of_mem _ hmem') p hp
    · rw [show insertTile ((z1, d) :: rest) z x y = (z1, d) :: insertTile rest z x y
        from by rw [insertTile, if_neg h1]] at hmem
      rcases List.mem_cons.mp hmem with heq | hmem'
      · injection heq with he1 he2
        rw [he2] at hp ⊢
        exact h z1 d (List.mem_cons_self _ _) p hp
      · exact ih (fun z2 d2 hm => h z2 d2 (List.mem_cons_of_mem _ hm)) z' d' hmem' p hp

theorem build_boxCovers (pat : CoordPattern) (zl : Option Int) :
    ∀ (files : List String) (idx : TileIndex),
      (∀ z d, (z, d) ∈ idx →
        ∀ p ∈ d.coords, d.minX ≤ p.1 ∧ p.1 ≤ d.maxX ∧ d.minY ≤ p.2 ∧ p.2 ≤ d.maxY) →
      ∀ z d, (z, d) ∈ files.foldl (indexStep pat zl) idx →
        ∀ p ∈ d.coords, d.minX ≤ p.1 ∧ p.1 ≤ d.maxX ∧ d.minY ≤ p.2 ∧ p.2 ≤ d.maxY := by
  intro files
  induction files with
  | nil => intro idx h; exact h
  | cons f fs ih =>
    intro idx h
    rw [List.foldl_cons]
    apply ih
    cases ht : tileOf pat zl f with
    | none =>
      rw [show indexStep pat zl idx f = idx from by rw [indexStep, ht]]
      exact h
    | some t =>
      rcases t with ⟨z0, x0, y0⟩
      rw [show indexStep pat zl idx f = insertTile idx z0 x0 y0
        from by rw [indexStep, ht]]
      exact insertTile_boxCovers z0 x0 y0 idx h

/-- C4 (counterexample): a file that matches the configured pattern with
three parseable integer groups is nevertheless skipped — nothing is inserted —
when it does not end in `.png` (first input, a `.jpg` file under a custom
pattern) or when it fails the optional zoom-level filter (second input, a
zoom-4 tile under a zoom-3 filter). -/
theorem C4_match_not_inserted_cex :
    parseTriple (fun s => if s = "1/2/3.jpg" then some ["1", "2", "3"] else none)
        "1/2/3.jpg" = some (1, 2, 3) ∧
    build_tile_index ["1/2/3.jpg"]
        (fun s => if s = "1/2/3.jpg" then some ["1", "2", "3"] else none) none = [] ∧
    parseTriple tilePattern "4/1/2.png" = some (4, 1, 2) ∧
    endsWithPng "4/1/2.png" = true ∧
    build_tile_index ["4/1/2.png"] tilePattern (some 3) = [] := by
  refine ⟨by decide, by decide, by decide, by decide, by decide⟩

/-- C4 (amended): during the walk, a pair (x, y) is in zoom z's coordinate
set iff some file ends in `.png` (case-insensitively), matches the pattern
with three parseable integer groups (z, x, y), and passes the optional
zoom-level filter — the conjunction captured by `tileOf`; and every zoom's
running bounding box covers all of its inserted coordinates.  All other files
are skipped without touching the index. -/
theorem C4_index_contents (files : List String) (pat : CoordPattern)
    (zoom_level : Option Int) :
    (∀ z x y : Int,
      ((x, y) ∈ zoomCoords (build_tile_index files pat zoom_level) z ↔
        ∃ f ∈ files, tileOf pat zoom_level f = some (z, x, y))) ∧
    (∀ z d, (z, d) ∈ build_tile_index files pat zoom_level →
      ∀ p ∈ d.coords,
        d.minX ≤ p.1 ∧ p.1 ≤ d.maxX ∧ d.minY ≤ p.2 ∧ p.2 ≤ d.maxY) := by
  constructor
  · intro z x y
    rw [build_tile_index, zoomCoords_foldl pat zoom_level files [] z x y]
    rw [zoomCoords_nil]
    simp
  · intro z d hmem
    rw [build_tile_index] at hmem
    exact build_boxCovers pat zoom_level files []
      (by intro z' d' h; simp at h) z d hmem

theorem C4_index_contents_witness :
    ((1, 2) ∈ zoomCoords (build_tile_index ["5/1/2.png"] tilePattern none) 5) ∧
    ((1 : Int) ≤ (1, 2).1 ∧ ((1, 2).1 : Int) ≤ 1 ∧ (2 : Int) ≤ (1, 2).2 ∧
      ((1, 2).2 : Int) ≤ 2) :=
  ⟨((C4_index_contents ["5/1/2.png"] tilePattern none).1 5 1 2).mpr
      ⟨"5/1/2.png", by decide, by decide⟩,
    (C4_index_contents ["5/1/2.png"] tilePattern none).2 5
      ⟨[(1, 2)], 1, 1, 2, 2⟩ (by decide) (1, 2) (by decide)⟩
